import Mathlib

/-!
Verification of the RPC resilience layer of the COPY_BOT repository: the
per-address nonce manager (src/safe-four-meme-trader/src/services/nonceManager.ts)
and the retry policy, cost model and token-bucket limiter
(src/safe-four-meme-trader/src/services/rpc.ts).

Conventions of the shallow embedding:
* Network calls are passed in as values of type `Except String _`, the outcome
  the call would have produced; state-mutating TypeScript code becomes explicit
  state passing.
* Wall-clock readings (`Date.now()`) are passed as parameters, in milliseconds.
* The per-address mutex of the nonce manager serializes its critical sections,
  so a sequence of calls on one address is embedded as sequential composition.
* The unbounded `while (true)` loop of the token bucket is embedded with an
  explicit fuel parameter; statements about termination quantify over fuel.
-/

namespace CopyBot

/-- Per-address state of the nonce manager (`NonceState` in nonceManager.ts):
`currentNonce` is `undefined` before the first sync (hence `Option`), and
`lastSyncMs` starts at `0`. -/
structure NonceState where
  currentNonce : Option Nat
  lastSyncMs : Int
  deriving Repr, DecidableEq

/-- Shallow embedding of `NonceManager.getNextNonce` (nonceManager.ts, lines
54-76).  `fetch` is the outcome the pending-inclusive
`publicClient.getTransactionCount` call would produce, `now` is `Date.now()`.
The function returns the reserved nonce (or the propagated fetch error)
together with the state at the end of the critical section.  `getD 0` embeds
the non-null assertion `state.currentNonce!`, which is reachable only when
`currentNonce` is set (the sync guard covers `isNone`). -/
def getNextNonce (fetch : Except String Nat) (now : Int) (forceResync : Bool)
    (s : NonceState) : Except String Nat × NonceState :=
  let needsSync := forceResync || s.currentNonce.isNone ||
    decide (now - s.lastSyncMs > 10000)
  match (if needsSync then
          fetch.map (fun chainPending =>
            ({ currentNonce := some chainPending, lastSyncMs := now } : NonceState))
         else .ok s) with
  | .error e => (.error e, s)
  | .ok s1 =>
      let next := s1.currentNonce.getD 0
      (.ok next, { s1 with currentNonce := some (next + 1) })

/-- Shallow embedding of `NonceManager.resync` (nonceManager.ts, lines 81-92):
unconditionally refetches the pending transaction count; on success it becomes
`currentNonce` and `lastSyncMs` is set to now; on failure the state is kept. -/
def resyncAddress (fetch : Except String Nat) (now : Int) (s : NonceState) :
    Except String Unit × NonceState :=
  match fetch with
  | .error e => (.error e, s)
  | .ok chainPending => (.ok (), ⟨some chainPending, now⟩)

/-- Sequential composition of `n` calls to `getNextNonce` on one address (the
address's mutex serializes them); call number `i + k` happens at time
`times (i + k)` with network outcome `fetches (i + k)` and resync flag
`forces (i + k)`.  Returns the results in call order and the final state. -/
def runCallsFrom (times : Nat → Int) (fetches : Nat → Except String Nat)
    (forces : Nat → Bool) : Nat → Nat → NonceState → List (Except String Nat) × NonceState
  | _, 0, s => ([], s)
  | i, n + 1, s =>
      let step := getNextNonce (fetches i) (times i) (forces i) s
      let rest := runCallsFrom times fetches forces (i + 1) n step.2
      (step.1 :: rest.1, rest.2)

/-- Boolean substring test on lists of characters: the needle occurs
contiguously in the haystack.  Embeds String.prototype.includes of JavaScript. -/
def listContainsSub : List Char → List Char → Bool
  | [], needle => needle.isEmpty
  | c :: t, needle => List.isPrefixOf needle (c :: t) || listContainsSub t needle

/-- String-level wrapper of the substring test. -/
def strContains (hay needle : String) : Bool :=
  listContainsSub hay.toList needle.toList

/-- Character-wise lowercasing, embedding String.prototype.toLowerCase for the
ASCII error messages involved here. -/
def lowerString (s : String) : String := String.mk (s.toList.map Char.toLower)

/-- Fatal-error classifier inside `retryWithBackoff` (rpc.ts, lines 243-251):
an error is not retried when its message contains "insufficient funds",
contains "nonce" case-insensitively, or contains "invalid signature",
"already known" or "replacement transaction underpriced". -/
def isFatalError (msg : String) : Bool :=
  strContains msg "insufficient funds" ||
  strContains (lowerString msg) "nonce" ||
  strContains msg "invalid signature" ||
  strContains msg "already known" ||
  strContains msg "replacement transaction underpriced"

/-- Trace of one `retryWithBackoff` run: the final outcome, the number of
invocations of the operation, and the backoff delays slept (ms, in order). -/
structure RetryResult (α : Type) where
  result : Except String α
  calls : Nat
  delays : List ℚ
  deriving Repr

/-- Loop of `retryWithBackoff` (rpc.ts, lines 229-265).  `fn k` is the outcome
of invocation number `k` (the 0-indexed `attempt` variable), `jitter k` embeds
the `Math.random() * 1000` drawn at attempt `k`, and `remaining` counts the
attempts still allowed after the current one (`maxRetries - attempt`), so the
source's `attempt === maxRetries` rethrow is the `remaining = 0` pattern. -/
def retryLoop (fn : Nat → Except String α) (baseDelay : ℚ) (jitter : Nat → ℚ) :
    Nat → Nat → RetryResult α
  | attempt, 0 =>
      match fn attempt with
      | .ok v => ⟨.ok v, 1, []⟩
      | .error e => ⟨.error e, 1, []⟩
  | attempt, r + 1 =>
      match fn attempt with
      | .ok v => ⟨.ok v, 1, []⟩
      | .error e =>
          if isFatalError e then ⟨.error e, 1, []⟩
          else
            let d := baseDelay * 2 ^ attempt + jitter attempt
            let rest := retryLoop fn baseDelay jitter (attempt + 1) r
            ⟨rest.result, rest.calls + 1, d :: rest.delays⟩

/-- Shallow embedding of `retryWithBackoff` (rpc.ts, lines 229-265), starting
at attempt 0 with `maxRetries` additional attempts allowed. -/
def retryWithBackoff (fn : Nat → Except String α) (maxRetries : Nat)
    (baseDelay : ℚ) (jitter : Nat → ℚ) : RetryResult α :=
  retryLoop fn baseDelay jitter 0 maxRetries

/-- State of the CU token bucket (rpc.ts, lines 124-127): the current token
count `cuTokens` and the `Date.now()` of the last refill, in milliseconds.
The bucket starts full: `cuTokens` is initialized to the configured budget. -/
structure BudgetState where
  cuTokens : ℚ
  lastRefill : ℚ
  deriving Repr, DecidableEq

/-- Shallow embedding of `refillTokens` (rpc.ts, lines 129-137) for a
configured budget `cap` (the `CU_BUDGET_PER_SEC` value: refill rate per second
and also the bucket capacity).  Elapsed time is measured in seconds and the
token count is capped at `cap`. -/
def refillTokens (cap : ℚ) (now : ℚ) (s : BudgetState) : BudgetState :=
  let elapsedSec := (now - s.lastRefill) / 1000
  if 0 < elapsedSec then
    { cuTokens := min cap (s.cuTokens + elapsedSec * cap), lastRefill := now }
  else s

/-- Sleep duration in milliseconds of one unsatisfied iteration of
`enforceBudget` (rpc.ts, lines 150-152): `max(5, ceil(deficit / cap * 1000))`
clamped to at most 200. -/
def waitMsFor (cap needed tokens : ℚ) : ℚ :=
  min (max 5 ((⌈(needed - tokens) / cap * 1000⌉ : ℤ) : ℚ)) 200

/-- Loop of `enforceBudget` (rpc.ts, lines 139-154) for a configured budget
`cap`.  Iteration `i` reads `Date.now()` as `times i`; `fuel` bounds the
unrolling of the unbounded `while (true)` loop (`none` meaning the loop has
not admitted the request within `fuel` iterations).  On admission the
requested cost is deducted from the refilled token count. -/
def enforceLoop (cap needed : ℚ) (times : Nat → ℚ) :
    Nat → Nat → BudgetState → Option BudgetState
  | _, 0, _ => none
  | i, fuel + 1, s =>
      let s1 := refillTokens cap (times i) s
      if needed ≤ s1.cuTokens then some { s1 with cuTokens := s1.cuTokens - needed }
      else enforceLoop cap needed times (i + 1) fuel s1

/-- Shallow embedding of `enforceBudget` (rpc.ts, lines 139-154): with no
configured budget (`CU_BUDGET_PER_SEC` undefined) it returns at once leaving
the bucket untouched; otherwise it runs the admission loop. -/
def enforceBudget (cap : Option ℚ) (needed : ℚ) (times : Nat → ℚ) (fuel : Nat)
    (s : BudgetState) : Option BudgetState :=
  match cap with
  | none => some s
  | some c => enforceLoop c needed times 0 fuel s

/-- Minimal model of a parsed JSON value, as produced by `JSON.parse` on an
outbound request body. -/
inductive JsValue where
  | jnull
  | jbool (b : Bool)
  | jnum (n : Int)
  | jstr (s : String)
  | jarr (xs : List JsValue)
  | jobj (fields : List (String × JsValue))

/-- Property access `o.k` on a parsed JSON value: a field of an object, and
`undefined` (`none`) on anything else, as in JavaScript. -/
def getField : JsValue → String → Option JsValue
  | .jobj fields, k => fields.lookup k
  | _, _ => none

/-- JavaScript truthiness `Boolean(v)` of a possibly-undefined value:
undefined, null, false, 0 and the empty string are falsy. -/
def truthy : Option JsValue → Bool
  | none => false
  | some .jnull => false
  | some (.jbool b) => b
  | some (.jnum n) => n != 0
  | some (.jstr s) => s != ""
  | some (.jarr _) => true
  | some (.jobj _) => true

/-- `Array.isArray` on a possibly-undefined value. -/
def isArrayVal : Option JsValue → Bool
  | some (.jarr _) => true
  | _ => false

/-- Indexing `params[k]`: an array element, or undefined when out of range or
when the value is not an array. -/
def elemAt : Option JsValue → Nat → Option JsValue
  | some (.jarr xs), k => xs.get? k
  | _, _ => none

/-- Built-in per-method cost table `DEFAULT_CU_WEIGHTS` (rpc.ts, lines 41-60). -/
def DEFAULT_CU_WEIGHTS : List (String × ℚ) :=
  [("eth_chainId", 1), ("net_version", 1), ("web3_clientVersion", 1),
   ("eth_blockNumber", 1), ("eth_gasPrice", 2),
   ("eth_getBalance", 3), ("eth_getCode", 4), ("eth_getTransactionByHash", 3),
   ("eth_getTransactionReceipt", 8), ("eth_getTransactionCount", 3),
   ("eth_call", 6),
   ("eth_getLogs", 20), ("eth_sendRawTransaction", 15),
   ("eth_getBlockByNumber", 8), ("eth_getBlockByHash", 8)]

/-- Lookup in the built-in cost table. -/
def defaultWeight (m : String) : Option ℚ := DEFAULT_CU_WEIGHTS.lookup m

/-- Shallow embedding of `weightFor` (rpc.ts, lines 70-78).  `user` is the
`USER_CU_WEIGHTS` override table parsed from the environment at startup;
`params` is the request's params value (possibly undefined).  The base weight
is the override, else the built-in default, else the fallback 5; block
fetches by number or hash whose second parameter is truthy (full transaction
bodies requested) are boosted by the factor 4. -/
def weightFor (user : String → Option ℚ) (method : String)
    (params : Option JsValue) : ℚ :=
  if (method == "eth_getBlockByNumber" || method == "eth_getBlockByHash") &&
      isArrayVal params then
    let includeTxs := truthy (elemAt params 1)
    let base := (user method).getD ((defaultWeight method).getD 5)
    if includeTxs then base * 4 else base
  else
    (user method).getD ((defaultWeight method).getD 5)

/-- Shallow embedding of `parsePayload` (rpc.ts, lines 110-122).  The request
body is abstracted as: `none` when absent (or when its string form is absent
or empty), `some (.error ())` when `JSON.parse` would throw, and
`some (.ok j)` when parsing would produce `j`.  A parsed array is a JSON-RPC
batch whose elements each contribute their method/params properties (possibly
undefined); a truthy non-array value with a truthy method property contributes
a single entry; anything else yields no entries. -/
def parsePayload (body : Option (Except Unit JsValue)) :
    List (Option JsValue × Option JsValue) :=
  match body with
  | none => []
  | some (.error _) => []
  | some (.ok (.jarr xs)) =>
      xs.map (fun x => (getField x "method", getField x "params"))
  | some (.ok j) =>
      if truthy (some j) && truthy (getField j "method") then
        [(getField j "method", getField j "params")]
      else []

/-- Table key used for an entry's method value in the cost lookup: its
characters when it is a string (the only case the cost tables can contain);
a non-string method coerces in JavaScript to a property key (such as
"undefined" or "null") that is present in neither table, so those keys are
collapsed here to representatives that are likewise in neither table. -/
def methodKey : Option JsValue → String
  | some (.jstr s) => s
  | some .jnull => "null"
  | some (.jbool b) => if b then "true" else "false"
  | some (.jnum n) => toString n
  | _ => "undefined"

/-- Estimated CU cost of one outbound request (rpc.ts, lines 164-166): the sum
of the weights of the parsed payload's entries, 0 for an empty payload. -/
def requestCu (user : String → Option ℚ) (body : Option (Except Unit JsValue)) : ℚ :=
  ((parsePayload body).map (fun c => weightFor user (methodKey c.1) c.2)).foldl
    (· + ·) 0

/-- Update of an association list at a key, replacing an existing binding or
appending a new one (`Map.prototype.set`). -/
def setAssoc {β : Type} : List (String × β) → String → β → List (String × β)
  | [], k, v => [(k, v)]
  | (k0, v0) :: t, k, v =>
      if k0 == k then (k0, v) :: t else (k0, v0) :: setAssoc t k v

/-- Process-wide usage metrics (rpc.ts, lines 80-87): call counts and
estimated CUs per method, the timeline of (timestamp, CUs, endpoint) records,
and per-endpoint totals (calls, CUs). -/
structure Metrics where
  callsByMethod : List (String × Nat)
  estCusByMethod : List (String × ℚ)
  estCusTimeline : List (ℚ × ℚ × String)
  byEndpoint : List (String × (Nat × ℚ))

/-- Shallow embedding of `recordUsage` (rpc.ts, lines 89-108): accumulates the
request's CUs, bumps the per-method views, appends a timeline record, bumps
the per-endpoint totals, and prunes timeline entries older than 5 minutes once
the timeline exceeds 5000 entries. -/
def recordUsage (now : ℚ) (endpointUrl : String)
    (methodWeights : List (String × ℚ)) (m : Metrics) : Metrics :=
  let reqCus := (methodWeights.map Prod.snd).foldl (· + ·) 0
  let m1 := methodWeights.foldl (fun acc mw =>
    { acc with
      callsByMethod := setAssoc acc.callsByMethod mw.1
        (((acc.callsByMethod.lookup mw.1).getD 0) + 1),
      estCusByMethod := setAssoc acc.estCusByMethod mw.1
        (((acc.estCusByMethod.lookup mw.1).getD 0) + mw.2) }) m
  let timeline := m1.estCusTimeline ++ [(now, reqCus, endpointUrl)]
  let ep := (m1.byEndpoint.lookup endpointUrl).getD (0, 0)
  let newByEndpoint := setAssoc m1.byEndpoint endpointUrl (ep.1 + 1, ep.2 + reqCus)
  let cutoff := now - 5 * 60000
  let timeline2 :=
    if 5000 < timeline.length then timeline.filter (fun e => decide (cutoff ≤ e.1))
    else timeline
  { m1 with estCusTimeline := timeline2, byEndpoint := newByEndpoint }

/-! Theorems. -/

theorem getNextNonce_no_sync (fetch : Except String Nat) (now : Int)
    (s : NonceState) (c : Nat) (hc : s.currentNonce = some c)
    (hfresh : now - s.lastSyncMs ≤ 10000) :
    getNextNonce fetch now false s = (.ok c, ⟨some (c + 1), s.lastSyncMs⟩) := by
  simp [getNextNonce, hc, show ¬(now - s.lastSyncMs > 10000) from by omega]

theorem getNextNonce_sync_ok (now : Int) (force : Bool) (s : NonceState) (cp : Nat)
    (hsync : force = true ∨ s.currentNonce = none ∨ now - s.lastSyncMs > 10000) :
    getNextNonce (.ok cp) now force s = (.ok cp, ⟨some (cp + 1), now⟩) := by
  rcases hsync with h | h | h <;> simp [getNextNonce, h, Except.map]

theorem getNextNonce_sync_error (e : String) (now : Int) (force : Bool)
    (s : NonceState)
    (hsync : force = true ∨ s.currentNonce = none ∨ now - s.lastSyncMs > 10000) :
    getNextNonce (.error e) now force s = (.error e, s) := by
  rcases hsync with h | h | h <;> simp [getNextNonce, h, Except.map]

theorem runCallsFrom_no_sync (times : Nat → Int) (fetches : Nat → Except String Nat)
    (n : Nat) :
    ∀ (i : Nat) (s : NonceState) (c : Nat), s.currentNonce = some c →
      (∀ k, k < n → times (i + k) - s.lastSyncMs ≤ 10000) →
      runCallsFrom times fetches (fun _ => false) i n s =
        ((List.range n).map (fun k => Except.ok (c + k)),
         ⟨some (c + n), s.lastSyncMs⟩) := by
  induction n with
  | zero =>
      intro i s c hc _
      cases s with
      | mk cur last => simp only [Option.some.injEq] at hc ⊢; simp [runCallsFrom, hc]
  | succ n ih =>
      intro i s c hc hfresh
      have h0 := hfresh 0 (Nat.succ_pos n)
      have hstep := getNextNonce_no_sync (fetches i) (times i) s c hc
        (by simpa using h0)
      have hrest := ih (i + 1) ⟨some (c + 1), s.lastSyncMs⟩ (c + 1) rfl
        (by intro k hk
            have := hfresh (k + 1) (Nat.succ_lt_succ hk)
            simpa [Nat.add_assoc, Nat.add_comm 1 k] using this)
      simp only [runCallsFrom, hstep, hrest, Prod.mk.injEq]
      constructor
      · rw [List.range_succ_eq_map, List.map_cons, List.map_map]
        refine congrArg (Except.ok c :: ·) ?_
        apply List.map_congr_left
        intro a _
        simp only [Function.comp]
        congr 1
        omega
      · simp only [NonceState.mk.injEq, Option.some.injEq, and_true]
        omega

/-- C1: With the address's mutex serializing the calls and no resync triggered
(forceResync is false, currentNonce is set, and every call happens within the
10-second staleness window), `n` calls to `getNextNonce` return the contiguous
ascending run `c, c+1, ..., c+n-1` starting from the pre-call `currentNonce = c`
(in particular `n` distinct integers), each call returning the stored value and
incrementing it by exactly one; `lastSyncMs` is untouched. -/
theorem nonce_contiguous_run (times : Nat → Int) (fetches : Nat → Except String Nat)
    (n : Nat) (s : NonceState) (c : Nat) (hc : s.currentNonce = some c)
    (hfresh : ∀ k, k < n → times k - s.lastSyncMs ≤ 10000) :
    runCallsFrom times fetches (fun _ => false) 0 n s =
      ((List.range n).map (fun k => Except.ok (c + k)),
       ⟨some (c + n), s.lastSyncMs⟩) ∧
    ((List.range n).map (fun k => c + k)).Nodup := by
  refine ⟨runCallsFrom_no_sync times fetches n 0 s c hc
      (by intro k hk; simpa using hfresh k hk), ?_⟩
  refine List.Nodup.map ?_ (List.nodup_range n)
  intro a b hab
  simpa using hab

/-- Witness for C1 at a concrete input: starting from stored nonce 7, three
fresh calls return 7, 8, 9 and leave the stored nonce at 10. -/
theorem nonce_contiguous_run_witness :
    runCallsFrom (fun _ => 0) (fun _ => .ok 0) (fun _ => false) 0 3 ⟨some 7, 0⟩ =
      ([Except.ok 7, Except.ok 8, Except.ok 9], ⟨some 10, 0⟩) := by
  have h := nonce_contiguous_run (fun _ => 0) (fun _ => .ok 0) 3 ⟨some 7, 0⟩ 7 rfl
    (by intro k _; norm_num)
  rw [h.1]
  rfl

/-- C3: `getNextNonce` performs a network resync exactly when `forceResync` is
true, or `currentNonce` is unset, or more than 10 seconds have elapsed since
`lastSyncMs`.  When the condition holds, the outcome reflects the fetch (an
error propagates with the state kept, a fetched count is stored and
`lastSyncMs` becomes `now`); when it fails, the result is the same for every
possible fetch outcome (no network call is consulted), the stored value is
returned and `lastSyncMs` is unchanged. -/
theorem nonce_resync_condition (fetch : Except String Nat) (now : Int)
    (force : Bool) (s : NonceState) :
    ((force = true ∨ s.currentNonce = none ∨ now - s.lastSyncMs > 10000) →
        (∀ e, fetch = .error e → getNextNonce fetch now force s = (.error e, s)) ∧
        (∀ cp, fetch = .ok cp →
          getNextNonce fetch now force s = (.ok cp, ⟨some (cp + 1), now⟩))) ∧
    (¬(force = true ∨ s.currentNonce = none ∨ now - s.lastSyncMs > 10000) →
        ∀ c, s.currentNonce = some c →
          getNextNonce fetch now force s = (.ok c, ⟨some (c + 1), s.lastSyncMs⟩)) := by
  constructor
  · intro hsync
    constructor
    · intro e he; subst he; exact getNextNonce_sync_error e now force s hsync
    · intro cp hcp; subst hcp; exact getNextNonce_sync_ok now force s cp hsync
  · intro hno c hc
    push_neg at hno
    cases force with
    | true => exact absurd rfl hno.1
    | false => exact getNextNonce_no_sync fetch now s c hc hno.2.2

/-- Witness for C3 at a concrete input: a fresh, initialized state is not
resynced (the fetched value 99 is ignored, the stored 4 is returned). -/
theorem nonce_resync_condition_witness :
    getNextNonce (.ok 99) 5000 false ⟨some 4, 0⟩ = (.ok 4, ⟨some 5, 0⟩) := by
  exact (nonce_resync_condition (.ok 99) 5000 false ⟨some 4, 0⟩).2 (by decide) 4 rfl

/-- C5: If the pending-count fetch of a resync fails, both `getNextNonce`
(whenever its sync condition holds) and `resyncAddress` leave the address state
exactly as it was and propagate the original error unmodified; no retry is
performed inside the nonce manager (the single fetch outcome decides the call). -/
theorem nonce_fetch_error_propagates (e : String) (now : Int) (force : Bool)
    (s : NonceState) :
    ((force = true ∨ s.currentNonce = none ∨ now - s.lastSyncMs > 10000) →
        getNextNonce (.error e) now force s = (.error e, s)) ∧
    resyncAddress (.error e) now s = (.error e, s) := by
  exact ⟨getNextNonce_sync_error e now force s, rfl⟩

/-- Witness for C5 at a concrete input: a forced resync whose fetch fails
returns the error and keeps the state `⟨some 3, 0⟩`. -/
theorem nonce_fetch_error_propagates_witness :
    getNextNonce (.error "boom") 0 true ⟨some 3, 0⟩ = (.error "boom", ⟨some 3, 0⟩) ∧
    resyncAddress (.error "boom") 0 ⟨some 3, 0⟩ = (.error "boom", ⟨some 3, 0⟩) := by
  have h := nonce_fetch_error_propagates "boom" 0 true ⟨some 3, 0⟩
  exact ⟨h.1 (Or.inl rfl), h.2⟩

/-- C6 counterexample: a `getNextNonce` call with `forceResync = false` can
lower the stored nonce.  From state `⟨some 10, 0⟩` (resynchronized earlier), a
call at time 20000 triggers the automatic staleness resync; the chain reports
pending count 5, so the stored value drops from 10 to 6 — a decrease without
any explicitly forced resync. -/
theorem nonce_stale_resync_decreases :
    (getNextNonce (.ok 5) 20000 false ⟨some 10, 0⟩).2.currentNonce = some 6 ∧
    6 < 10 := by
  constructor
  · rfl
  · norm_num

/-- C6 (amended): once resynchronized, the stored `currentNonce` never
decreases across a sequence of `getNextNonce` calls with `forceResync = false`
in which no automatic staleness resync triggers (each call lands within the
10-second window of the last sync); besides an explicitly forced resync, an
automatic staleness resync may also set it lower. -/
theorem nonce_monotone_within_window (times : Nat → Int)
    (fetches : Nat → Except String Nat) (n : Nat) (s : NonceState) (c : Nat)
    (hc : s.currentNonce = some c)
    (hfresh : ∀ k, k < n → times k - s.lastSyncMs ≤ 10000) :
    ∀ k₁ k₂, k₁ ≤ k₂ → k₂ ≤ n →
      ∃ a b,
        (runCallsFrom times fetches (fun _ => false) 0 k₁ s).2.currentNonce = some a ∧
        (runCallsFrom times fetches (fun _ => false) 0 k₂ s).2.currentNonce = some b ∧
        a ≤ b := by
  intro k₁ k₂ h12 h2n
  have h1 := runCallsFrom_no_sync times fetches k₁ 0 s c hc
    (by intro k hk; simpa using hfresh k (lt_of_lt_of_le hk (le_trans h12 h2n)))
  have h2 := runCallsFrom_no_sync times fetches k₂ 0 s c hc
    (by intro k hk; simpa using hfresh k (lt_of_lt_of_le hk h2n))
  refine ⟨c + k₁, c + k₂, ?_, ?_, by omega⟩
  · rw [h1]
  · rw [h2]

/-- Witness for C6 (amended) at a concrete input: after 0 and 2 of 2 fresh
calls from stored nonce 7, the stored values are 7 and 9, nondecreasing. -/
theorem nonce_monotone_within_window_witness :
    ∃ a b,
      (runCallsFrom (fun _ => 0) (fun _ => .ok 0) (fun _ => false) 0 0
        ⟨some 7, 0⟩).2.currentNonce = some a ∧
      (runCallsFrom (fun _ => 0) (fun _ => .ok 0) (fun _ => false) 0 2
        ⟨some 7, 0⟩).2.currentNonce = some b ∧
      a ≤ b := by
  exact nonce_monotone_within_window (fun _ => 0) (fun _ => .ok 0) 2 ⟨some 7, 0⟩ 7
    rfl (by intro k _; norm_num) 0 2 (by norm_num) (by norm_num)

/-- C2: an operation whose first failure message contains a fatal marker (in
the sense of `isFatalError`: "insufficient funds", case-insensitive "nonce",
"invalid signature", "already known", "replacement transaction underpriced")
is invoked exactly once by `retryWithBackoff`, the error is rethrown unchanged
and no delay is slept; in particular a message containing "insufficient funds"
is fatal, hence never retried. -/
theorem retry_fatal_no_retry {α : Type} (fn : Nat → Except String α)
    (maxRetries : Nat) (baseDelay : ℚ) (jitter : Nat → ℚ) (e : String) :
    (fn 0 = .error e → isFatalError e = true →
      retryWithBackoff fn maxRetries baseDelay jitter = ⟨.error e, 1, []⟩) ∧
    (strContains e "insufficient funds" = true → isFatalError e = true) := by
  constructor
  · intro h0 hf
    cases maxRetries with
    | zero => simp [retryWithBackoff, retryLoop, h0]
    | succ r => simp [retryWithBackoff, retryLoop, h0, hf]
  · intro h
    simp [isFatalError, h]

/-- Witness for C2 at a concrete input: an operation always failing with
"insufficient funds for gas" is called once and its error surfaces as-is. -/
theorem retry_fatal_no_retry_witness :
    retryWithBackoff (fun _ => (.error "insufficient funds for gas" : Except String Unit))
      3 1000 (fun _ => 0) = ⟨.error "insufficient funds for gas", 1, []⟩ := by
  exact (retry_fatal_no_retry
    (fun _ => (.error "insufficient funds for gas" : Except String Unit)) 3
    1000 (fun _ => 0) "insufficient funds for gas").1 rfl (by decide)

theorem retryLoop_all_fail {α : Type} (fn : Nat → Except String α)
    (baseDelay : ℚ) (jitter : Nat → ℚ) (errs : Nat → String) :
    ∀ (r a : Nat),
      (∀ k, a ≤ k → k ≤ a + r → fn k = .error (errs k)) →
      (∀ k, a ≤ k → k ≤ a + r → isFatalError (errs k) = false) →
      retryLoop fn baseDelay jitter a r =
        ⟨.error (errs (a + r)), r + 1,
         (List.range r).map (fun k => baseDelay * 2 ^ (a + k) + jitter (a + k))⟩ := by
  intro r
  induction r with
  | zero =>
      intro a hf _
      have h := hf a le_rfl (by omega)
      simp [retryLoop, h]
  | succ r ih =>
      intro a hf hnf
      have h := hf a le_rfl (by omega)
      have hn := hnf a le_rfl (by omega)
      have hrest := ih (a + 1) (fun k h1 h2 => hf k (by omega) (by omega))
        (fun k h1 h2 => hnf k (by omega) (by omega))
      simp only [retryLoop, h, hn, hrest, Bool.false_eq_true, if_false,
        RetryResult.mk.injEq]
      refine ⟨congrArg (fun m => Except.error (errs m))
        (show a + 1 + r = a + (r + 1) from by omega), trivial, ?_⟩
      rw [List.range_succ_eq_map, List.map_cons, List.map_map, List.cons.injEq]
      refine ⟨by norm_num, ?_⟩
      apply List.map_congr_left
      intro b _
      simp only [Function.comp, Nat.succ_eq_add_one]
      rw [show a + 1 + b = a + (b + 1) from by omega]

/-- C4: when every attempt fails with a non-fatal error, `retryWithBackoff`
performs `maxRetries` additional invocations (maxRetries + 1 in total), the
delay before retry number N (1-indexed, i.e. after attempt N-1) is
`baseDelay * 2 ^ (N-1)` plus the jitter drawn from `[0, 1000)`, the expected
delays (jitter replaced by its mean 500) are strictly increasing, and the last
observed error is thrown. -/
theorem retry_backoff_schedule {α : Type} (fn : Nat → Except String α)
    (maxRetries : Nat) (baseDelay : ℚ) (jitter : Nat → ℚ) (errs : Nat → String)
    (hfail : ∀ k, k ≤ maxRetries → fn k = .error (errs k))
    (hnonfatal : ∀ k, k ≤ maxRetries → isFatalError (errs k) = false)
    (_hjitter : ∀ k, 0 ≤ jitter k ∧ jitter k < 1000)
    (hbase : 0 < baseDelay) :
    retryWithBackoff fn maxRetries baseDelay jitter =
      ⟨.error (errs maxRetries), maxRetries + 1,
       (List.range maxRetries).map (fun k => baseDelay * 2 ^ k + jitter k)⟩ ∧
    (∀ k, baseDelay * 2 ^ k + 500 < baseDelay * 2 ^ (k + 1) + 500) := by
  constructor
  · have h := retryLoop_all_fail fn baseDelay jitter errs maxRetries 0
      (fun k _ hk => hfail k (by omega)) (fun k _ hk => hnonfatal k (by omega))
    simpa [retryWithBackoff] using h
  · intro k
    have h2 : (0 : ℚ) < 2 ^ k := by positivity
    rw [pow_succ]
    nlinarith

/-- Witness for C4 at a concrete input: an operation always failing with the
non-fatal "rate limit", with maxRetries 2, base delay 1000 and zero jitter, is
invoked 3 times with delays 1000 and 2000 before the last error surfaces. -/
theorem retry_backoff_schedule_witness :
    retryWithBackoff (fun _ => (.error "rate limit" : Except String Unit)) 2 1000
      (fun _ => 0) = ⟨.error "rate limit", 3, [1000, 2000]⟩ := by
  have h := (retry_backoff_schedule
    (fun _ => (.error "rate limit" : Except String Unit)) 2 1000
    (fun _ => 0) (fun _ => "rate limit") (fun _ _ => rfl)
    (fun _ _ => (by decide : isFatalError "rate limit" = false))
    (fun _ => by norm_num) (by norm_num)).1
  rw [h]
  norm_num [List.range_succ]

theorem refillTokens_le_cap (cap now : ℚ) (s : BudgetState)
    (h : s.cuTokens ≤ cap) : (refillTokens cap now s).cuTokens ≤ cap := by
  simp only [refillTokens]
  by_cases hp : 0 < (now - s.lastRefill) / 1000
  · rw [if_pos hp]; exact min_le_left _ _
  · rw [if_neg hp]; exact h

theorem refillTokens_nonneg (cap now : ℚ) (s : BudgetState)
    (h0 : 0 ≤ s.cuTokens) (hcap : 0 ≤ cap) :
    0 ≤ (refillTokens cap now s).cuTokens := by
  simp only [refillTokens]
  by_cases hp : 0 < (now - s.lastRefill) / 1000
  · rw [if_pos hp]
    refine le_min hcap ?_
    have h1 : 0 ≤ (now - s.lastRefill) / 1000 * cap := mul_nonneg hp.le hcap
    linarith
  · rw [if_neg hp]; exact h0

theorem refillTokens_lastRefill (cap now : ℚ) (s : BudgetState)
    (h : s.lastRefill ≤ now) : (refillTokens cap now s).lastRefill = now := by
  simp only [refillTokens]
  by_cases hp : 0 < (now - s.lastRefill) / 1000
  · rw [if_pos hp]
  · rw [if_neg hp]
    have h1 : now - s.lastRefill ≤ 0 := by
      by_contra hc
      push_neg at hc
      exact hp (div_pos hc (by norm_num))
    linarith

theorem enforceLoop_some_spec (cap needed : ℚ) (times : Nat → ℚ) :
    ∀ (fuel i : Nat) (s s2 : BudgetState), s.cuTokens ≤ cap →
      enforceLoop cap needed times i fuel s = some s2 →
      ∃ r, needed ≤ r ∧ r ≤ cap ∧ s2.cuTokens = r - needed := by
  intro fuel
  induction fuel with
  | zero => intro i s s2 _ h; simp [enforceLoop] at h
  | succ fuel ih =>
      intro i s s2 hle h
      simp only [enforceLoop] at h
      by_cases hg : needed ≤ (refillTokens cap (times i) s).cuTokens
      · rw [if_pos hg] at h
        refine ⟨(refillTokens cap (times i) s).cuTokens, hg,
          refillTokens_le_cap cap (times i) s hle, ?_⟩
        cases h
        rfl
      · rw [if_neg hg] at h
        exact ih (i + 1) _ s2 (refillTokens_le_cap cap (times i) s hle) h

/-- C7: with no configured budget `enforceBudget` returns at once leaving the
bucket untouched (no wait, no token mutation); with a configured budget `cap`,
each admission check refills the bucket by elapsed seconds times the rate,
capping it at the capacity `cap` (the per-second budget itself), and an
admission deducts exactly the requested cost from the refilled count, so the
token count stays within `[0, cap]`. -/
theorem budget_admission_spec (cap needed : ℚ) (times : Nat → ℚ) (fuel : Nat)
    (s : BudgetState) (hneed : 0 ≤ needed) (hle : s.cuTokens ≤ cap) :
    (∀ (s0 : BudgetState) (needed0 : ℚ) (times0 : Nat → ℚ) (fuel0 : Nat),
        enforceBudget none needed0 times0 fuel0 s0 = some s0) ∧
    (∀ now, 0 < now - s.lastRefill →
        (refillTokens cap now s).cuTokens
          = min cap (s.cuTokens + (now - s.lastRefill) / 1000 * cap)) ∧
    (∀ s2, enforceBudget (some cap) needed times fuel s = some s2 →
        ∃ r, needed ≤ r ∧ r ≤ cap ∧ s2.cuTokens = r - needed ∧
          0 ≤ s2.cuTokens ∧ s2.cuTokens ≤ cap) := by
  refine ⟨fun _ _ _ _ => rfl, ?_, ?_⟩
  · intro now hpos
    simp only [refillTokens]
    rw [if_pos (div_pos hpos (by norm_num))]
  · intro s2 h
    simp only [enforceBudget] at h
    obtain ⟨r, h1, h2, h3⟩ := enforceLoop_some_spec cap needed times fuel 0 s s2 hle h
    exact ⟨r, h1, h2, h3, by rw [h3]; linarith, by rw [h3]; linarith⟩

/-- Witness for C7 at a concrete input: a bucket holding 5 of capacity 10
admits a request of cost 3 at once, leaving 2 = 5 - 3 tokens within bounds. -/
theorem budget_admission_spec_witness :
    ∃ r, (3 : ℚ) ≤ r ∧ r ≤ 10 ∧ (2 : ℚ) = r - 3 ∧ (0 : ℚ) ≤ 2 ∧ (2 : ℚ) ≤ 10 := by
  exact (budget_admission_spec 10 3 (fun _ => 0) 1 ⟨5, 0⟩ (by norm_num)
    (by norm_num)).2.2 ⟨2, 0⟩ (by norm_num [enforceBudget, enforceLoop, refillTokens])

theorem advance_refill_lb (cap d : ℚ) (hcap : 0 < cap) (hd : 5 ≤ d) :
    cap / 200 ≤ d / 1000 * cap := by
  have h1 : (5 : ℚ) / 1000 * cap ≤ d / 1000 * cap := by
    apply mul_le_mul_of_nonneg_right _ hcap.le
    linarith
  have h2 : cap / 200 = 5 / 1000 * cap := by ring
  rw [h2]
  exact h1

theorem enforceLoop_isSome_of_bound (cap needed : ℚ) (times : Nat → ℚ)
    (hcap : 0 < cap) (hneed : needed ≤ cap)
    (hadv : ∀ i, times i + 5 ≤ times (i + 1)) :
    ∀ (k i : Nat) (s : BudgetState), 0 ≤ s.cuTokens → s.cuTokens ≤ cap →
      s.lastRefill ≤ times i →
      needed ≤ s.cuTokens + (times i - s.lastRefill) / 1000 * cap + k * (cap / 200) →
      (enforceLoop cap needed times i (k + 1) s).isSome = true := by
  intro k
  induction k with
  | zero =>
      intro i s h0 hle hlast hbound
      have hguard : needed ≤ (refillTokens cap (times i) s).cuTokens := by
        simp only [refillTokens]
        by_cases hp : 0 < (times i - s.lastRefill) / 1000
        · rw [if_pos hp]
          dsimp only
          refine le_min hneed ?_
          simpa using hbound
        · rw [if_neg hp]
          have h1 : times i - s.lastRefill ≤ 0 := by
            by_contra hc
            push_neg at hc
            exact hp (div_pos hc (by norm_num))
          have h2 : times i - s.lastRefill = 0 := le_antisymm h1 (by linarith)
          rw [h2] at hbound
          simpa using hbound
      simp only [enforceLoop]
      rw [if_pos hguard]
      rfl
  | succ k ih =>
      intro i s h0 hle hlast hbound
      simp only [enforceLoop]
      by_cases hg : needed ≤ (refillTokens cap (times i) s).cuTokens
      · rw [if_pos hg]; rfl
      · rw [if_neg hg]
        have hlr : (refillTokens cap (times i) s).lastRefill = times i :=
          refillTokens_lastRefill cap (times i) s hlast
        have hd := hadv i
        have hlb := advance_refill_lb cap (times (i + 1) - times i) hcap (by linarith)
        push_cast at hbound
        rw [show ((k : ℚ) + 1) * (cap / 200) = (k : ℚ) * (cap / 200) + cap / 200
          from by ring] at hbound
        apply ih (i + 1) (refillTokens cap (times i) s)
          (refillTokens_nonneg cap (times i) s h0 hcap.le)
          (refillTokens_le_cap cap (times i) s hle)
          (by rw [hlr]; linarith)
        rw [hlr]
        simp only [refillTokens]
        by_cases hp : 0 < (times i - s.lastRefill) / 1000
        · rw [if_pos hp]
          dsimp only
          rcases le_total cap (s.cuTokens + (times i - s.lastRefill) / 1000 * cap)
            with hmin | hmin
          · rw [min_eq_left hmin]
            have h3 : (0 : ℚ) ≤ (k : ℚ) * (cap / 200) := by positivity
            have h4 : (0 : ℚ) ≤ times (i + 1) - times i := by linarith
            have h5 : (0 : ℚ) ≤ (times (i + 1) - times i) / 1000 * cap := by positivity
            linarith
          · rw [min_eq_right hmin]
            linarith
        · rw [if_neg hp]
          have h1 : times i - s.lastRefill ≤ 0 := by
            by_contra hc
            push_neg at hc
            exact hp (div_pos hc (by norm_num))
          have h2 : times i - s.lastRefill = 0 := le_antisymm h1 (by linarith)
          rw [h2] at hbound
          simp only [zero_div, zero_mul, add_zero] at hbound
          linarith

/-- C8 (amended): for every configured budget and every requested cost not
exceeding the bucket capacity (which equals the per-second budget), the
admission loop of `enforceBudget` eventually returns, given that wall-clock
time advances by at least the minimum 5 ms sleep between iterations; each
unsatisfied iteration sleeps a bounded duration between 5 and 200 ms, and the
bucket refills monotonically over time until the tokens suffice.  (As the
counterexample shows, a cost above the capacity is never admitted.) -/
theorem budget_no_starvation (cap needed : ℚ) (times : Nat → ℚ) (s : BudgetState)
    (hcap : 0 < cap) (hneed : needed ≤ cap) (h0 : 0 ≤ s.cuTokens)
    (hle : s.cuTokens ≤ cap) (hlast : s.lastRefill ≤ times 0)
    (hadv : ∀ i, times i + 5 ≤ times (i + 1)) :
    (∃ fuel, (enforceBudget (some cap) needed times fuel s).isSome = true) ∧
    (∀ tokens, 5 ≤ waitMsFor cap needed tokens ∧ waitMsFor cap needed tokens ≤ 200) := by
  constructor
  · refine ⟨200 + 1, ?_⟩
    simp only [enforceBudget]
    apply enforceLoop_isSome_of_bound cap needed times hcap hneed hadv 200 0 s
      h0 hle hlast
    have h1 : (0 : ℚ) ≤ times 0 - s.lastRefill := by linarith
    have he : (0 : ℚ) ≤ (times 0 - s.lastRefill) / 1000 * cap := by positivity
    push_cast
    linarith
  · intro tokens
    constructor
    · simp only [waitMsFor]
      exact le_min (le_max_left _ _) (by norm_num)
    · simp only [waitMsFor]
      exact min_le_right _ _

/-- Witness for C8 (amended) at a concrete input: budget 1 CU/s, cost 1,
empty bucket, time advancing 5 ms per iteration. -/
theorem budget_no_starvation_witness :
    (∃ fuel,
      (enforceBudget (some 1) 1 (fun i => 5 * (i : ℚ)) fuel ⟨0, 0⟩).isSome = true) ∧
    (∀ tokens, 5 ≤ waitMsFor 1 1 tokens ∧ waitMsFor 1 1 tokens ≤ 200) := by
  exact budget_no_starvation 1 1 (fun i => 5 * (i : ℚ)) ⟨0, 0⟩ (by norm_num)
    (by norm_num) (by norm_num) (by norm_num) (by norm_num)
    (by intro i; push_cast; linarith)

theorem enforceLoop_none_of_exceeds (cap needed : ℚ) (times : Nat → ℚ)
    (hexceed : cap < needed) :
    ∀ (fuel i : Nat) (s : BudgetState), s.cuTokens ≤ cap →
      enforceLoop cap needed times i fuel s = none := by
  intro fuel
  induction fuel with
  | zero => intro i s _; simp [enforceLoop]
  | succ fuel ih =>
      intro i s hle
      simp only [enforceLoop]
      have hcap2 := refillTokens_le_cap cap (times i) s hle
      rw [if_neg (by linarith)]
      exact ih (i + 1) _ hcap2

/-- C8 counterexample: with a configured budget of 1 CU per second, a request
costing 2 CUs is never admitted by `enforceBudget` — the bucket is capped at
the capacity 1 and can never reach 2 — even though wall-clock time advances by
a full second every iteration; so the claim fails for costs above the
capacity. -/
theorem budget_starvation_counterexample :
    ¬ ∃ fuel,
      (enforceBudget (some 1) 2 (fun i => 1000 * (i : ℚ)) fuel ⟨1, 0⟩).isSome
        = true := by
  rintro ⟨fuel, h⟩
  have hnone := enforceLoop_none_of_exceeds 1 2 (fun i => 1000 * (i : ℚ))
    (by norm_num) fuel 0 ⟨1, 0⟩ (by norm_num)
  simp only [enforceBudget] at h
  rw [hnone] at h
  simp at h

/-- C9: `weightFor` selects the user-override weight when present, else the
built-in default weight, else the fixed fallback 5; for eth_getBlockByNumber
and eth_getBlockByHash called with a parameter list whose second entry is
truthy (full transaction bodies requested), the selected base weight is
multiplied by the fixed factor 4; for any other method the base weight is
returned unboosted for every params value. -/
theorem weightFor_spec (user : String → Option ℚ) (method : String)
    (ps : List JsValue) :
    (weightFor user method (some (.jarr ps)) =
      (if (method = "eth_getBlockByNumber" ∨ method = "eth_getBlockByHash") ∧
          truthy (ps.get? 1) = true
       then ((user method).getD ((defaultWeight method).getD 5)) * 4
       else (user method).getD ((defaultWeight method).getD 5))) ∧
    (∀ params, ¬(method = "eth_getBlockByNumber" ∨ method = "eth_getBlockByHash") →
       weightFor user method params
         = (user method).getD ((defaultWeight method).getD 5)) ∧
    (user method = none → defaultWeight method = none →
       weightFor user method none = 5) := by
  refine ⟨?_, ?_, ?_⟩
  · by_cases h1 : method = "eth_getBlockByNumber"
    · cases ht : truthy ps[1]? <;>
        simp [weightFor, isArrayVal, elemAt, h1, ht]
    · by_cases h2 : method = "eth_getBlockByHash"
      · cases ht : truthy ps[1]? <;>
          simp [weightFor, isArrayVal, elemAt, h1, h2, ht]
      · simp [weightFor, isArrayVal, h1, h2]
  · intro params hno
    push_neg at hno
    simp [weightFor, hno.1, hno.2]
  · intro hu hd
    simp [weightFor, isArrayVal, hu, hd]

/-- Witness for C9 at a concrete input: a method in neither table falls back
to the fixed weight 5. -/
theorem weightFor_spec_witness :
    weightFor (fun _ => none) "web3_sha3" none = 5 :=
  (weightFor_spec (fun _ => none) "web3_sha3" []).2.2 rfl rfl

theorem payload_empty_entries (body : Option (Except Unit JsValue))
    (hbody : body = none ∨ body = some (.error ()) ∨
      (∃ j, body = some (.ok j) ∧ isArrayVal (some j) = false ∧
        (truthy (some j) = false ∨ truthy (getField j "method") = false))) :
    parsePayload body = [] := by
  rcases hbody with h | h | ⟨j, hj, harr, hfalse⟩
  · rw [h]; rfl
  · rw [h]; rfl
  · rw [hj]
    have hcond : (truthy (some j) && truthy (getField j "method")) = false := by
      rcases hfalse with h | h
      · rw [h]; rfl
      · rw [h, Bool.and_false]
    cases j with
    | jarr xs => simp [isArrayVal] at harr
    | jnull => simp [parsePayload, hcond]
    | jbool b => simp [parsePayload, hcond]
    | jnum n => simp [parsePayload, hcond]
    | jstr t => simp [parsePayload, hcond]
    | jobj f => simp [parsePayload, hcond]

/-- C10: when the outbound request body is absent, unparseable, or parses to a
non-batch value without a truthy method property, the cost estimator yields no
entries, the estimated request cost is 0, the limiter admits the request in
the very first loop iteration even with an empty bucket (deducting nothing
from the token count), and the usage meter records the dispatch with a
zero-cost timeline record while leaving the per-method views untouched. -/
theorem unparseable_body_unmetered (user : String → Option ℚ) (cap : ℚ)
    (times : Nat → ℚ) (s : BudgetState) (body : Option (Except Unit JsValue))
    (now : ℚ) (ep : String) (m : Metrics)
    (hbody : body = none ∨ body = some (.error ()) ∨
      (∃ j, body = some (.ok j) ∧ isArrayVal (some j) = false ∧
        (truthy (some j) = false ∨ truthy (getField j "method") = false)))
    (h0 : 0 ≤ s.cuTokens) (hcap : 0 ≤ cap) :
    parsePayload body = [] ∧
    requestCu user body = 0 ∧
    (∃ s1, enforceLoop cap 0 times 0 1 s = some s1 ∧
       s1.cuTokens = (refillTokens cap (times 0) s).cuTokens) ∧
    ((recordUsage now ep [] m).callsByMethod = m.callsByMethod ∧
     (recordUsage now ep [] m).estCusByMethod = m.estCusByMethod ∧
     (now, 0, ep) ∈ (recordUsage now ep [] m).estCusTimeline) := by
  have hparse := payload_empty_entries body hbody
  have hguard : (0 : ℚ) ≤ (refillTokens cap (times 0) s).cuTokens :=
    refillTokens_nonneg cap (times 0) s h0 hcap
  refine ⟨hparse, ?_, ?_, rfl, rfl, ?_⟩
  · simp [requestCu, hparse]
  · refine ⟨{ refillTokens cap (times 0) s with
        cuTokens := (refillTokens cap (times 0) s).cuTokens - 0 }, ?_, ?_⟩
    · simp only [enforceLoop]
      rw [if_pos hguard]
    · simp
  · simp only [recordUsage, List.map_nil, List.foldl_nil]
    by_cases hl : 5000 < (m.estCusTimeline ++ [(now, (0 : ℚ), ep)]).length
    · rw [if_pos hl]
      apply List.mem_filter.mpr
      refine ⟨List.mem_append_right _ ?_, ?_⟩
      · simp
      · simp only [decide_eq_true_eq]
        norm_num
    · rw [if_neg hl]
      refine List.mem_append_right _ ?_
      simp

/-- Witness for C10 at a concrete input: an unparseable body, an empty bucket
of capacity 10, and empty metrics. -/
theorem unparseable_body_unmetered_witness :
    parsePayload (some (.error ())) = [] ∧
    requestCu (fun _ => none) (some (.error ())) = 0 ∧
    (∃ s1, enforceLoop 10 0 (fun _ => 0) 0 1 ⟨0, 0⟩ = some s1 ∧
       s1.cuTokens = (refillTokens 10 0 ⟨0, 0⟩).cuTokens) ∧
    ((recordUsage 0 "bsc-rpc.example" [] ⟨[], [], [], []⟩).callsByMethod = [] ∧
     (recordUsage 0 "bsc-rpc.example" [] ⟨[], [], [], []⟩).estCusByMethod = [] ∧
     ((0 : ℚ), (0 : ℚ), "bsc-rpc.example")
       ∈ (recordUsage 0 "bsc-rpc.example" [] ⟨[], [], [], []⟩).estCusTimeline) := by
  exact unparseable_body_unmetered (fun _ => none) 10 (fun _ => 0) ⟨0, 0⟩
    (some (.error ())) 0 "bsc-rpc.example" ⟨[], [], [], []⟩
    (Or.inr (Or.inl rfl)) (by norm_num) (by norm_num)

end CopyBot
